import Mathlib

/-!
Shallow embedding of the encode_patch pipeline, translated from
src/core/encode_core.py and src/core/decode_core.py.

Modelling conventions:
* Python byte strings are `List Nat` with every entry below 256.
* Python text strings are `List Nat` of Unicode code points.
* File-system effects are explicit: the chunk writer returns the list of
  chunk contents it writes (index i of the list is the content of the file
  baseName + i + ".txt"), and the chunk reader receives the resource table
  as a `List (Option (List Nat))`, entry i being `some content` exactly when
  the file for index i exists; indices beyond the end of the list are absent.
* The external AES block cipher and the three compression libraries
  (zlib, lzma, brotli) are parameters of the pipeline definitions; theorems
  that need their guarantees take them as explicit hypotheses.
-/

namespace EncodePatch

/-- A byte sequence: every entry is below 256. -/
def IsBytes (l : List Nat) : Prop := ∀ b ∈ l, b < 256

/-! ### Base64 (base64.b64encode / base64.b64decode on the standard alphabet) -/

/-- The base64 alphabet character (as a code point) of a six-bit value,
as used by base64.b64encode in the encoder (encode_core.py line 191). -/
def sextetChar (v : Nat) : Nat :=
  if v < 26 then 65 + v
  else if v < 52 then 97 + (v - 26)
  else if v < 62 then 48 + (v - 52)
  else if v = 62 then 43
  else 47

/-- Inverse alphabet lookup used by the base64 decoder
(decode_core.py line 113). -/
def sextetOfChar (c : Nat) : Option Nat :=
  if 65 ≤ c ∧ c ≤ 90 then some (c - 65)
  else if 97 ≤ c ∧ c ≤ 122 then some (26 + (c - 97))
  else if 48 ≤ c ∧ c ≤ 57 then some (52 + (c - 48))
  else if c = 43 then some 62
  else if c = 47 then some 63
  else none

/-- base64.b64encode on a byte list, producing code points; 61 is the
padding character. -/
def b64encode : List Nat → List Nat
  | [] => []
  | [a] => [sextetChar (a / 4), sextetChar (a % 4 * 16), 61, 61]
  | [a, b] => [sextetChar (a / 4), sextetChar (a % 4 * 16 + b / 16),
               sextetChar (b % 16 * 4), 61]
  | a :: b :: c :: rest =>
      sextetChar (a / 4) :: sextetChar (a % 4 * 16 + b / 16) ::
      sextetChar (b % 16 * 4 + c / 64) :: sextetChar (c % 64) :: b64encode rest

/-- base64.b64decode on a code-point list: groups of four alphabet
characters, the last group possibly padded with 61. -/
def b64decode : List Nat → Option (List Nat)
  | [] => some []
  | c0 :: c1 :: c2 :: c3 :: rest =>
      match sextetOfChar c0, sextetOfChar c1 with
      | some v0, some v1 =>
        if c2 = 61 ∧ c3 = 61 ∧ rest = [] then
          some [v0 * 4 + v1 / 16]
        else if c3 = 61 ∧ rest = [] then
          match sextetOfChar c2 with
          | some v2 => some [v0 * 4 + v1 / 16, v1 % 16 * 16 + v2 / 4]
          | none => none
        else
          match sextetOfChar c2, sextetOfChar c3 with
          | some v2, some v3 =>
            match b64decode rest with
            | some bs =>
                some ((v0 * 4 + v1 / 16) :: (v1 % 16 * 16 + v2 / 4) ::
                      (v2 % 4 * 64 + v3) :: bs)
            | none => none
          | _, _ => none
      | _, _ => none
  | _ => none

lemma sextetOfChar_sextetChar : ∀ v < 64, sextetOfChar (sextetChar v) = some v := by
  decide

lemma sextetChar_ne_61 : ∀ v < 64, sextetChar v ≠ 61 := by
  decide

lemma b64_round_trip : ∀ bs, IsBytes bs → b64decode (b64encode bs) = some bs
  | [], _ => rfl
  | [a], h => by
      have ha : a < 256 := h a (by simp)
      have h0 := sextetOfChar_sextetChar (a / 4) (by omega)
      have h1 := sextetOfChar_sextetChar (a % 4 * 16) (by omega)
      simp only [b64encode, b64decode, h0, h1]
      simp
      omega
  | [a, b], h => by
      have ha : a < 256 := h a (by simp)
      have hb : b < 256 := h b (by simp)
      have h0 := sextetOfChar_sextetChar (a / 4) (by omega)
      have h1 := sextetOfChar_sextetChar (a % 4 * 16 + b / 16) (by omega)
      have h2 := sextetOfChar_sextetChar (b % 16 * 4) (by omega)
      have hne := sextetChar_ne_61 (b % 16 * 4) (by omega)
      simp only [b64encode, b64decode, h0, h1, h2]
      rw [if_neg (by simp [hne])]
      simp
      constructor <;> omega
  | a :: b :: c :: rest, h => by
      have ha : a < 256 := h a (by simp)
      have hb : b < 256 := h b (by simp)
      have hc : c < 256 := h c (by simp)
      have ih := b64_round_trip rest (fun x hx => h x (by simp [hx]))
      have h0 := sextetOfChar_sextetChar (a / 4) (by omega)
      have h1 := sextetOfChar_sextetChar (a % 4 * 16 + b / 16) (by omega)
      have h2 := sextetOfChar_sextetChar (b % 16 * 4 + c / 64) (by omega)
      have h3 := sextetOfChar_sextetChar (c % 64) (by omega)
      have hne2 := sextetChar_ne_61 (b % 16 * 4 + c / 64) (by omega)
      have hne3 := sextetChar_ne_61 (c % 64) (by omega)
      simp only [b64encode, b64decode, h0, h1, h2, h3]
      rw [if_neg (by simp [hne2]), if_neg (by simp [hne3])]
      rw [ih]
      simp
      refine ⟨by omega, by omega, by omega⟩

/-! ### UTF-8 (str.encode and bytes.decode with the utf-8 codec) -/

/-- UTF-8 encoding of one Unicode code point, as produced by
str.encode with the utf-8 codec. -/
def utf8EncodeChar (v : Nat) : List Nat :=
  if v < 128 then [v]
  else if v < 2048 then [192 + v / 64, 128 + v % 64]
  else if v < 65536 then [224 + v / 4096, 128 + v / 64 % 64, 128 + v % 64]
  else [240 + v / 262144, 128 + v / 4096 % 64, 128 + v / 64 % 64, 128 + v % 64]

/-- UTF-8 encoding of a text (a list of code points). -/
def utf8Encode : List Nat → List Nat
  | [] => []
  | v :: t => utf8EncodeChar v ++ utf8Encode t

/-- Strict UTF-8 decoding with explicit fuel (the fuel is always given as
the byte length, which suffices since each step consumes at least one byte).
Mirrors bytes.decode with the utf-8 codec: rejects stray continuation
bytes, truncated sequences, overlong encodings, surrogates and code points
beyond 1114111; on any such error the Python code raises
UnicodeDecodeError, modelled as `none`. -/
def utf8DecodeAux : Nat → List Nat → Option (List Nat)
  | _, [] => some []
  | 0, _ :: _ => none
  | fuel + 1, b0 :: rest =>
    if b0 < 128 then
      match utf8DecodeAux fuel rest with
      | some s => some (b0 :: s)
      | none => none
    else if b0 < 192 then none
    else if b0 < 224 then
      match rest with
      | b1 :: rest1 =>
        if 128 ≤ b1 ∧ b1 < 192 then
          if (b0 - 192) * 64 + (b1 - 128) < 128 then none
          else
            match utf8DecodeAux fuel rest1 with
            | some s => some (((b0 - 192) * 64 + (b1 - 128)) :: s)
            | none => none
        else none
      | [] => none
    else if b0 < 240 then
      match rest with
      | b1 :: b2 :: rest2 =>
        if (128 ≤ b1 ∧ b1 < 192) ∧ (128 ≤ b2 ∧ b2 < 192) then
          if (b0 - 224) * 4096 + (b1 - 128) * 64 + (b2 - 128) < 2048 ∨
             (55296 ≤ (b0 - 224) * 4096 + (b1 - 128) * 64 + (b2 - 128) ∧
              (b0 - 224) * 4096 + (b1 - 128) * 64 + (b2 - 128) < 57344) then none
          else
            match utf8DecodeAux fuel rest2 with
            | some s => some (((b0 - 224) * 4096 + (b1 - 128) * 64 + (b2 - 128)) :: s)
            | none => none
        else none
      | _ => none
    else if b0 < 248 then
      match rest with
      | b1 :: b2 :: b3 :: rest3 =>
        if (128 ≤ b1 ∧ b1 < 192) ∧ (128 ≤ b2 ∧ b2 < 192) ∧ (128 ≤ b3 ∧ b3 < 192) then
          if (b0 - 240) * 262144 + (b1 - 128) * 4096 + (b2 - 128) * 64 + (b3 - 128) < 65536 ∨
             1114112 ≤ (b0 - 240) * 262144 + (b1 - 128) * 4096 + (b2 - 128) * 64 + (b3 - 128)
          then none
          else
            match utf8DecodeAux fuel rest3 with
            | some s =>
                some (((b0 - 240) * 262144 + (b1 - 128) * 4096 + (b2 - 128) * 64 +
                       (b3 - 128)) :: s)
            | none => none
        else none
      | _ => none
    else none

/-- bytes.decode with the utf-8 codec. -/
def utf8Decode (l : List Nat) : Option (List Nat) := utf8DecodeAux l.length l

/-- A Unicode scalar value: in range and not a surrogate.  Python strings
hold exactly these (lone surrogates cannot pass through str.encode). -/
def ValidCodepoint (v : Nat) : Prop := v < 1114112 ∧ ¬ (55296 ≤ v ∧ v < 57344)

/-- All code points of a text are Unicode scalar values. -/
def ValidStr (s : List Nat) : Prop := ∀ v ∈ s, ValidCodepoint v

lemma utf8EncodeChar_ne_nil (v : Nat) : utf8EncodeChar v ≠ [] := by
  unfold utf8EncodeChar
  split <;> simp_all
  split <;> simp_all
  split <;> simp_all

lemma utf8Encode_bytes (s : List Nat) (h : ValidStr s) : IsBytes (utf8Encode s) := by
  induction s with
  | nil => intro b hb; simp [utf8Encode] at hb
  | cons v t ih =>
    intro b hb
    have hv := h v (by simp)
    obtain ⟨hlt, hsur⟩ := hv
    simp only [utf8Encode, List.mem_append] at hb
    rcases hb with hb | hb
    · unfold utf8EncodeChar at hb
      split at hb
      · simp at hb; omega
      · split at hb
        · simp at hb; rcases hb with hb | hb <;> omega
        · split at hb
          · simp at hb; rcases hb with hb | hb | hb <;> omega
          · simp at hb; rcases hb with hb | hb | hb | hb <;> omega
    · exact ih (fun x hx => h x (by simp [hx])) b hb

lemma utf8Encode_ne_nil (v : Nat) (t : List Nat) : utf8Encode (v :: t) ≠ [] := by
  simp only [utf8Encode]
  intro h
  exact utf8EncodeChar_ne_nil v (List.append_eq_nil.mp h).1

lemma utf8DecodeAux_encode :
    ∀ (s : List Nat) (fuel : Nat), ValidStr s → (utf8Encode s).length ≤ fuel →
      utf8DecodeAux fuel (utf8Encode s) = some s := by
  intro s
  induction s with
  | nil =>
    intro fuel _ _
    cases fuel <;> rfl
  | cons v t ih =>
    intro fuel hval hfuel
    have hv : ValidCodepoint v := hval v (by simp)
    obtain ⟨hlt, hsur⟩ := hv
    have hvt : ValidStr t := fun x hx => hval x (by simp [hx])
    simp only [utf8Encode] at hfuel ⊢
    by_cases h1 : v < 128
    · rw [show utf8EncodeChar v = [v] from by simp [utf8EncodeChar, h1]] at hfuel ⊢
      simp only [List.length_cons, List.cons_append, List.nil_append] at hfuel ⊢
      obtain ⟨f, rfl⟩ : ∃ f, fuel = f + 1 := ⟨fuel - 1, by omega⟩
      simp only [utf8DecodeAux, h1, if_true, ite_true, ih f hvt (by omega)]
    · by_cases h2 : v < 2048
      · rw [show utf8EncodeChar v = [192 + v / 64, 128 + v % 64] from by
          simp [utf8EncodeChar, h1, h2]] at hfuel ⊢
        simp only [List.length_append, List.length_cons, List.length_nil,
          List.cons_append, List.nil_append] at hfuel ⊢
        obtain ⟨f, rfl⟩ : ∃ f, fuel = f + 1 := ⟨fuel - 1, by omega⟩
        have c1 : ¬ (192 + v / 64 < 128) := by omega
        have c2 : ¬ (192 + v / 64 < 192) := by omega
        have c3 : 192 + v / 64 < 224 := by omega
        have c4 : 128 ≤ 128 + v % 64 ∧ 128 + v % 64 < 192 := by omega
        have cv : (192 + v / 64 - 192) * 64 + (128 + v % 64 - 128) = v := by omega
        have c5 : ¬ ((192 + v / 64 - 192) * 64 + (128 + v % 64 - 128) < 128) := by
          omega
        simp only [utf8DecodeAux, c1, c2, c3, c4, c5, cv, if_true, if_false,
          ite_true, ite_false, and_self, and_true, true_and, h1,
          ih f hvt (by omega)]
      · by_cases h3 : v < 65536
        · rw [show utf8EncodeChar v =
              [224 + v / 4096, 128 + v / 64 % 64, 128 + v % 64] from by
            simp [utf8EncodeChar, h1, h2, h3]] at hfuel ⊢
          simp only [List.length_append, List.length_cons, List.length_nil,
            List.cons_append, List.nil_append] at hfuel ⊢
          obtain ⟨f, rfl⟩ : ∃ f, fuel = f + 1 := ⟨fuel - 1, by omega⟩
          have c1 : ¬ (224 + v / 4096 < 128) := by omega
          have c2 : ¬ (224 + v / 4096 < 192) := by omega
          have c3 : ¬ (224 + v / 4096 < 224) := by omega
          have c4 : 224 + v / 4096 < 240 := by omega
          have c5 : (128 ≤ 128 + v / 64 % 64 ∧ 128 + v / 64 % 64 < 192) ∧
              128 ≤ 128 + v % 64 ∧ 128 + v % 64 < 192 := by omega
          have cv : (224 + v / 4096 - 224) * 4096 + (128 + v / 64 % 64 - 128) * 64 +
              (128 + v % 64 - 128) = v := by omega
          have c6 : ¬ (v < 2048 ∨ (55296 ≤ v ∧ v < 57344)) := by omega
          simp only [utf8DecodeAux, c1, c2, c3, c4, c5, cv, c6, if_true, if_false,
            ite_true, ite_false, and_self, and_true, true_and,
            ih f hvt (by omega)]
        · rw [show utf8EncodeChar v =
              [240 + v / 262144, 128 + v / 4096 % 64, 128 + v / 64 % 64, 128 + v % 64]
              from by simp [utf8EncodeChar, h1, h2, h3]] at hfuel ⊢
          simp only [List.length_append, List.length_cons, List.length_nil,
            List.cons_append, List.nil_append] at hfuel ⊢
          obtain ⟨f, rfl⟩ : ∃ f, fuel = f + 1 := ⟨fuel - 1, by omega⟩
          have c1 : ¬ (240 + v / 262144 < 128) := by omega
          have c2 : ¬ (240 + v / 262144 < 192) := by omega
          have c3 : ¬ (240 + v / 262144 < 224) := by omega
          have c4 : ¬ (240 + v / 262144 < 240) := by omega
          have c5 : 240 + v / 262144 < 248 := by omega
          have c6 : (128 ≤ 128 + v / 4096 % 64 ∧ 128 + v / 4096 % 64 < 192) ∧
              (128 ≤ 128 + v / 64 % 64 ∧ 128 + v / 64 % 64 < 192) ∧
              128 ≤ 128 + v % 64 ∧ 128 + v % 64 < 192 := by omega
          have cv : (240 + v / 262144 - 240) * 262144 + (128 + v / 4096 % 64 - 128) * 4096 +
              (128 + v / 64 % 64 - 128) * 64 + (128 + v % 64 - 128) = v := by omega
          have c7 : ¬ (v < 65536 ∨ 1114112 ≤ v) := by omega
          simp only [utf8DecodeAux, c1, c2, c3, c4, c5, c6, cv, c7, if_true, if_false,
            ite_true, ite_false, and_self, and_true, true_and,
            ih f hvt (by omega)]

/-- UTF-8 round trip: decoding the encoding of any Python-representable text
gives back that text. -/
lemma utf8_decode_encode (s : List Nat) (h : ValidStr s) :
    utf8Decode (utf8Encode s) = some s :=
  utf8DecodeAux_encode s (utf8Encode s).length h le_rfl

/-! ### Python str.strip whitespace test -/

/-- Code points removed by Python str.strip with no argument (the str
whitespace set).  Only the emptiness test encoded_string.strip() == ""
(decode_core.py line 106) is modelled, as the predicate that every
character is whitespace. -/
def isPySpace (c : Nat) : Bool :=
  decide (c = 9 ∨ c = 10 ∨ c = 11 ∨ c = 12 ∨ c = 13 ∨ c = 28 ∨ c = 29 ∨ c = 30 ∨
    c = 31 ∨ c = 32 ∨ c = 133 ∨ c = 160 ∨ c = 5760 ∨ (8192 ≤ c ∧ c ≤ 8202) ∨
    c = 8232 ∨ c = 8233 ∨ c = 8239 ∨ c = 8287 ∨ c = 12288)

lemma sextetChar_not_space : ∀ v < 64, isPySpace (sextetChar v) = false := by
  decide

lemma b64encode_head_not_space (a : Nat) (l : List Nat) (ha : a < 256) :
    ∃ c t, b64encode (a :: l) = c :: t ∧ isPySpace c = false := by
  cases l with
  | nil => exact ⟨_, _, rfl, sextetChar_not_space (a / 4) (by omega)⟩
  | cons b l2 =>
    cases l2 with
    | nil => exact ⟨_, _, rfl, sextetChar_not_space (a / 4) (by omega)⟩
    | cons c l3 => exact ⟨_, _, rfl, sextetChar_not_space (a / 4) (by omega)⟩

/-! ### Key coercion (encode_core.py lines 55-61, decode_core.py lines 53-57) -/

/-- Key coercion in aes_encrypt: UTF-8 encode the key string, zero-pad on
the right to 32 bytes if shorter, truncate to the first 32 bytes if longer. -/
def encrypt_key_bytes (key : List Nat) : List Nat :=
  let kb := utf8Encode key
  if kb.length < 32 then kb ++ List.replicate (32 - kb.length) 0
  else if kb.length > 32 then kb.take 32
  else kb

/-- Key coercion in aes_decrypt: textually identical to the one in
aes_encrypt. -/
def decrypt_key_bytes (key : List Nat) : List Nat :=
  let kb := utf8Encode key
  if kb.length < 32 then kb ++ List.replicate (32 - kb.length) 0
  else if kb.length > 32 then kb.take 32
  else kb

/-! ### AES layer (encode_core.py lines 39-94, decode_core.py lines 31-93)

The AES-256 block permutation itself lives in the external cryptography
library; the pipeline definitions take it as a parameter
AESb : key bytes → 16-byte block → 16-byte block (and its inverse AESbInv
for the cipher-block-chaining trial).  Everything the source builds on top
of it (counter keystream, output-feedback keystream, chaining, PKCS#7
padding, IV handling, mode trials) is modelled explicitly. -/

/-- The guarantees of a real block cipher that the round-trip facts need:
each output block is 16 bytes of real byte values. -/
def GoodBlock (AESb : List Nat → List Nat → List Nat) : Prop :=
  ∀ kb blk, (AESb kb blk).length = 16 ∧ ∀ b ∈ AESb kb blk, b < 256

/-- Big-endian value of a byte string (used for the counter). -/
def bytesToNat (l : List Nat) : Nat := l.foldl (fun acc b => acc * 256 + b) 0

/-- 16-byte big-endian representation of a value below 2 ^ 128. -/
def natToBytes16 (v : Nat) : List Nat :=
  (List.range 16).map (fun j => v / 256 ^ (15 - j) % 256)

/-- The i-th counter block of CTR mode: the nonce interpreted as a 128-bit
big-endian integer, incremented by i modulo 2 ^ 128. -/
def ctrBlock (nonce : List Nat) (i : Nat) : List Nat :=
  natToBytes16 ((bytesToNat nonce + i) % 2 ^ 128)

/-- The CTR keystream: encryptions of successive counter blocks, truncated
to the data length. -/
def ctrKeystream (AESb : List Nat → List Nat → List Nat)
    (kb nonce : List Nat) (n : Nat) : List Nat :=
  (((List.range ((n + 15) / 16)).map (fun i => AESb kb (ctrBlock nonce i))).flatten).take n

/-- The OFB block chain: each keystream block is the encryption of the
previous one, starting from the IV. -/
def ofbBlocks (AESb : List Nat → List Nat → List Nat)
    (kb : List Nat) : List Nat → Nat → List (List Nat)
  | _, 0 => []
  | prev, m + 1 =>
      AESb kb prev :: ofbBlocks AESb kb (AESb kb prev) m

/-- The OFB keystream, truncated to the data length. -/
def ofbKeystream (AESb : List Nat → List Nat → List Nat)
    (kb iv : List Nat) (n : Nat) : List Nat :=
  ((ofbBlocks AESb kb iv ((n + 15) / 16)).flatten).take n

/-- Byte-wise exclusive or (streams are combined with xor in CTR and OFB). -/
def xorBytes (a b : List Nat) : List Nat := List.zipWith Nat.xor a b

/-- PKCS#7 padding to the 16-byte block boundary (always adds between 1 and
16 bytes, each equal to the pad length). -/
def pkcs7Pad (data : List Nat) : List Nat :=
  data ++ List.replicate (16 - data.length % 16) (16 - data.length % 16)

/-- PKCS#7 unpadding as done by the cryptography unpadder: the last byte
gives the pad length, which must be between 1 and 16 and no longer than the
data, and every pad byte must equal it; otherwise a padding error is
raised. -/
def pkcs7Unpad (l : List Nat) : Except Unit (List Nat) :=
  match l.getLast? with
  | none => .error ()
  | some p =>
    if 1 ≤ p ∧ p ≤ 16 ∧ p ≤ l.length ∧ (l.drop (l.length - p)).all (fun b => b == p)
    then .ok (l.take (l.length - p))
    else .error ()

/-- CBC encryption of a block-aligned message: each plaintext block is
xor-ed with the previous ciphertext block (the IV first) and sent through
the block cipher.  Fuel-structural; the fuel is the data length, ample
since each step consumes 16 bytes. -/
def cbcEncryptAux (AESb : List Nat → List Nat → List Nat)
    (kb : List Nat) : Nat → List Nat → List Nat → List Nat
  | _, _, [] => []
  | 0, _, _ :: _ => []
  | fuel + 1, prev, l =>
      AESb kb (xorBytes (l.take 16) prev) ++
      cbcEncryptAux AESb kb fuel (AESb kb (xorBytes (l.take 16) prev)) (l.drop 16)

/-- CBC encryption starting from the IV. -/
def cbcEncrypt (AESb : List Nat → List Nat → List Nat)
    (kb iv data : List Nat) : List Nat :=
  cbcEncryptAux AESb kb data.length iv data

/-- CBC decryption of a block-aligned ciphertext. -/
def cbcDecryptAux (AESbInv : List Nat → List Nat → List Nat)
    (kb : List Nat) : Nat → List Nat → List Nat → List Nat
  | _, _, [] => []
  | 0, _, _ :: _ => []
  | fuel + 1, prev, l =>
      xorBytes (AESbInv kb (l.take 16)) prev ++
      cbcDecryptAux AESbInv kb fuel (l.take 16) (l.drop 16)

/-- The AES encryption modes reachable from aes_encrypt: the mode string
ctr or ofb selects the stream mode of the same name, any other string
falls through to the default CBC branch. -/
inductive AesMode
  | ctr
  | ofb
  | cbc
deriving DecidableEq

/-- Error values of the three decryption mode trials in aes_decrypt.  The
CTR and OFB trials never fail (stream decryption raises no exception for a
16-byte IV), CBC fails when the ciphertext is not block-aligned or the
padding is invalid. -/
inductive ModeErr
  | notMultipleOfBlock
  | badPadding
deriving DecidableEq

/-- Errors raised by aes_decrypt: "加密数据太短" for inputs shorter than 16
bytes, and the ValueError enumerating each mode's failure when all three
trials raise. -/
inductive DecErr
  | tooShort
  | decryptionFailed (ctrErr cbcErr ofbErr : ModeErr)
deriving DecidableEq

/-- aes_encrypt (encode_core.py lines 39-94).  The random 16-byte
os.urandom IV/nonce is passed explicitly.  CTR and OFB xor the data with a
keystream; the default branch CBC applies PKCS#7 padding and chains blocks.
In every mode the IV/nonce is prepended to the encrypted payload. -/
def aes_encrypt (AESb : List Nat → List Nat → List Nat)
    (data key : List Nat) (mode : AesMode) (ivOrNonce : List Nat) : List Nat :=
  match mode with
  | .ctr => ivOrNonce ++
      xorBytes data (ctrKeystream AESb (encrypt_key_bytes key) ivOrNonce data.length)
  | .ofb => ivOrNonce ++
      xorBytes data (ofbKeystream AESb (encrypt_key_bytes key) ivOrNonce data.length)
  | .cbc => ivOrNonce ++
      cbcEncrypt AESb (encrypt_key_bytes key) ivOrNonce (pkcs7Pad data)

/-- The CTR trial of aes_decrypt (decode_core.py lines 60-64): stream
decryption, which always completes. -/
def ctrTry (AESb : List Nat → List Nat → List Nat)
    (kb iv ct : List Nat) : Except ModeErr (List Nat) :=
  .ok (xorBytes ct (ctrKeystream AESb kb iv ct.length))

/-- The CBC trial of aes_decrypt (decode_core.py lines 67-78): block
decryption then PKCS#7 unpadding; raises when the ciphertext length is not
a multiple of 16 or the padding is invalid. -/
def cbcTry (AESbInv : List Nat → List Nat → List Nat)
    (kb iv ct : List Nat) : Except ModeErr (List Nat) :=
  if ct.length % 16 = 0 then
    match pkcs7Unpad (cbcDecryptAux AESbInv kb ct.length iv ct) with
    | .ok r => .ok r
    | .error _ => .error .badPadding
  else .error .notMultipleOfBlock

/-- The OFB trial of aes_decrypt (decode_core.py lines 81-85): stream
decryption, which always completes. -/
def ofbTry (AESb : List Nat → List Nat → List Nat)
    (kb iv ct : List Nat) : Except ModeErr (List Nat) :=
  .ok (xorBytes ct (ofbKeystream AESb kb iv ct.length))

/-- aes_decrypt (decode_core.py lines 31-93): rejects inputs shorter than
16 bytes, splits off the 16-byte IV/nonce, coerces the key, then tries CTR,
CBC and OFB in that order, returning the first trial that completes and
raising an error listing all three failures when every trial raises. -/
def aes_decrypt (AESb AESbInv : List Nat → List Nat → List Nat)
    (encryptedData key : List Nat) : Except DecErr (List Nat) :=
  if encryptedData.length < 16 then .error .tooShort
  else
    match ctrTry AESb (decrypt_key_bytes key) (encryptedData.take 16)
        (encryptedData.drop 16) with
    | .ok r => .ok r
    | .error e1 =>
      match cbcTry AESbInv (decrypt_key_bytes key) (encryptedData.take 16)
          (encryptedData.drop 16) with
      | .ok r => .ok r
      | .error e2 =>
        match ofbTry AESb (decrypt_key_bytes key) (encryptedData.take 16)
            (encryptedData.drop 16) with
        | .ok r => .ok r
        | .error e3 => .error (.decryptionFailed e1 e2 e3)

/-! ### Compression layer (external zlib / lzma / brotli libraries) -/

/-- An external compression library: a compress function taking the
level/preset/quality knob, and a decompress function that can fail on a
corrupt stream. -/
structure Compressor where
  comp : Nat → List Nat → List Nat
  decomp : List Nat → Option (List Nat)

/-- The guarantees of the real compression libraries that the round-trip
facts need: decompression inverts compression, a compressed stream is never
empty (all three formats emit headers), and compressed output of a byte
string is a byte string. -/
def GoodCompressor (C : Compressor) : Prop :=
  ∀ lvl d, C.decomp (C.comp lvl d) = some d ∧ C.comp lvl d ≠ [] ∧
    (IsBytes d → IsBytes (C.comp lvl d))

/-- Algorithm dispatch of compress_and_encode (encode_core.py lines
153-167): zlib, lzma and brotli by name, any other name is unsupported and
the function fails. -/
def compressDispatch (zlibC lzmaC brotliC : Compressor)
    (algorithm : String) (level : Nat) (data : List Nat) : Option (List Nat) :=
  if algorithm = "zlib" then some (zlibC.comp level data)
  else if algorithm = "lzma" then some (lzmaC.comp level data)
  else if algorithm = "brotli" then some (brotliC.comp level data)
  else none

/-- Algorithm dispatch of decode_and_decompress (decode_core.py lines
132-146); the library decompress call can also fail on a corrupt stream. -/
def decompressDispatch (zlibC lzmaC brotliC : Compressor)
    (algorithm : String) (data : List Nat) : Option (List Nat) :=
  if algorithm = "zlib" then zlibC.decomp data
  else if algorithm = "lzma" then lzmaC.decomp data
  else if algorithm = "brotli" then brotliC.decomp data
  else none

/-! ### Forward pipeline (encode_core.py) -/

/-- compress_and_encode (encode_core.py lines 118-222), with the file read
modelled as the byte list argument and the os.urandom nonce passed
explicitly.  Compresses with the chosen algorithm, optionally encrypts with
AES in CTR mode, then base64-encodes.  Any failure (unsupported algorithm,
encryption import error) yields None; the informational SHA-256 file hash
is out of scope. -/
def compress_and_encode (AESb : List Nat → List Nat → List Nat)
    (zlibC lzmaC brotliC : Compressor) (fileBytes : List Nat)
    (compressionLevel : Nat) (algorithm : String) (encrypt : Bool)
    (key nonce : List Nat) : Option (List Nat) :=
  match compressDispatch zlibC lzmaC brotliC algorithm compressionLevel fileBytes with
  | none => none
  | some compressedData =>
      some (b64encode
        (if encrypt then aes_encrypt AESb compressedData key .ctr nonce
         else compressedData))

/-- Errors of save_encoded_string_in_chunks: "没有可保存的数据" when the
encoded string is empty or None, "分块大小必须大于0" when the chunk size is
negative. -/
inductive SaveErr
  | emptyInput
  | invalidArgument
deriving DecidableEq

/-- The chunk slicing loop of save_encoded_string_in_chunks (encode_core.py
lines 263-271): consecutive pieces of at most cs characters.
Fuel-structural; the fuel is the text length, ample since cs is at least 1
on every reachable call. -/
def splitChunksAux : Nat → Nat → List Nat → List (List Nat)
  | _, _, [] => []
  | 0, _, _ :: _ => []
  | fuel + 1, cs, l => l.take cs :: splitChunksAux fuel cs (l.drop cs)

/-- Chunk slicing starting with full fuel. -/
def splitChunks (cs : Nat) (text : List Nat) : List (List Nat) :=
  splitChunksAux text.length cs text

/-- save_encoded_string_in_chunks (encode_core.py lines 224-281): rejects
an empty string, replaces chunk size 0 by the whole length, rejects a
negative chunk size, then writes the slices to files base_filename + i +
".txt" in index order; the returned list holds the written contents. -/
def save_encoded_string_in_chunks (encodedString : List Nat) (chunkSize : Int) :
    Except SaveErr (List (List Nat)) :=
  if encodedString = [] then .error .emptyInput
  else
    if (if chunkSize = 0 then (encodedString.length : Int) else chunkSize) < 0 then
      .error .invalidArgument
    else
      .ok (splitChunks
        (if chunkSize = 0 then (encodedString.length : Int) else chunkSize).toNat
        encodedString)

/-! ### Reverse pipeline (decode_core.py) -/

/-- decode_and_decompress (decode_core.py lines 95-165): fails on an empty
or all-whitespace string, base64-decodes, optionally AES-decrypts, then
decompresses with the chosen algorithm and UTF-8 decodes the result; every
raised error is caught and turned into None. -/
def decode_and_decompress (AESb AESbInv : List Nat → List Nat → List Nat)
    (zlibC lzmaC brotliC : Compressor) (encodedString : List Nat)
    (algorithm : String) (decrypt : Bool) (key : List Nat) : Option (List Nat) :=
  if encodedString = [] ∨ encodedString.all isPySpace then none
  else
    match b64decode encodedString with
    | none => none
    | some decodedBytes =>
      match (if decrypt then aes_decrypt AESb AESbInv decodedBytes key
             else .ok decodedBytes) with
      | .error _ => none
      | .ok payload =>
        match decompressDispatch zlibC lzmaC brotliC algorithm payload with
        | none => none
        | some decompressedBytes => utf8Decode decompressedBytes

/-- Failures of the chunk loading loop: "找不到分块文件" when the file for
index 0 is absent, "未找到分块文件或文件为空" when the concatenation of the
chunks read is empty. -/
inductive JoinErr
  | noChunksFound
  | emptyContent
deriving DecidableEq

/-- The reading part of the while loop of load_and_restore_from_chunks:
append the content of resource i for i = 0, 1, ... until the first absent
index. -/
def joinLoop : List (Option (List Nat)) → List Nat
  | [] => []
  | none :: _ => []
  | some c :: rest => c ++ joinLoop rest

/-- The chunk loading phase of load_and_restore_from_chunks (decode_core.py
lines 179-211): error when the resource for index 0 is absent, otherwise
read and concatenate resources in index order up to the first absent index;
error when the combined string is empty. -/
def loadChunks : List (Option (List Nat)) → Except JoinErr (List Nat)
  | [] => .error .noChunksFound
  | none :: _ => .error .noChunksFound
  | some c :: rest =>
      if c ++ joinLoop rest = [] then .error .emptyContent
      else .ok (c ++ joinLoop rest)

/-- load_and_restore_from_chunks (decode_core.py lines 167-242): load the
chunks, decode and decompress the combined string, and write the restored
text (as UTF-8) to the output file; the returned value is the written text,
None on any failure. -/
def load_and_restore_from_chunks (AESb AESbInv : List Nat → List Nat → List Nat)
    (zlibC lzmaC brotliC : Compressor) (chunkFiles : List (Option (List Nat)))
    (algorithm : String) (decrypt : Bool) (key : List Nat) : Option (List Nat) :=
  match loadChunks chunkFiles with
  | .error _ => none
  | .ok combined =>
      decode_and_decompress AESb AESbInv zlibC lzmaC brotliC combined
        algorithm decrypt key

/-- The whole round trip of claim C1: forward pipeline (compress_and_encode
then save_encoded_string_in_chunks), then reverse pipeline
(load_and_restore_from_chunks) over the chunk files just written. -/
def full_round_trip (AESb AESbInv : List Nat → List Nat → List Nat)
    (zlibC lzmaC brotliC : Compressor) (fileBytes : List Nat)
    (compressionLevel : Nat) (algorithm : String) (encrypt : Bool)
    (key nonce : List Nat) (chunkSize : Int) : Option (List Nat) :=
  match compress_and_encode AESb zlibC lzmaC brotliC fileBytes compressionLevel
      algorithm encrypt key nonce with
  | none => none
  | some encoded =>
    match save_encoded_string_in_chunks encoded chunkSize with
    | .error _ => none
    | .ok chunks =>
        load_and_restore_from_chunks AESb AESbInv zlibC lzmaC brotliC
          (chunks.map some) algorithm encrypt key

/-! ### Concrete instances used by the closed witness computations -/

/-- A block function with the shape guarantees of a real cipher (constant
output; the CTR and OFB round trips hold for any block function). -/
def constBlock : List Nat → List Nat → List Nat := fun _ _ => List.replicate 16 7

/-- A compressor instance satisfying GoodCompressor: append one marker
byte; decompression drops it. -/
def padComp : Compressor :=
  { comp := fun _ d => d ++ [0], decomp := fun b => some b.dropLast }

lemma goodBlock_constBlock : GoodBlock constBlock := by
  intro kb blk
  constructor
  · rfl
  · intro b hb
    simp [constBlock] at hb
    omega

lemma goodCompressor_padComp : GoodCompressor padComp := by
  intro lvl d
  refine ⟨by simp [padComp], by simp [padComp], ?_⟩
  intro hd b hb
  simp [padComp, List.mem_append] at hb
  rcases hb with hb | hb
  · exact hd b hb
  · omega

/-! ### Chunker lemmas -/

lemma joinLoop_map_some (l : List (List Nat)) : joinLoop (l.map some) = l.flatten := by
  induction l with
  | nil => rfl
  | cons c t ih => simp [joinLoop, ih]

lemma joinLoop_map_some_append_none (l : List (List Nat))
    (rest : List (Option (List Nat))) :
    joinLoop (l.map some ++ none :: rest) = l.flatten := by
  induction l with
  | nil => rfl
  | cons c t ih => simp [joinLoop, ih]

lemma loadChunks_map_some (l : List (List Nat)) (h1 : l ≠ [])
    (h2 : l.flatten ≠ []) : loadChunks (l.map some) = .ok l.flatten := by
  cases l with
  | nil => exact absurd rfl h1
  | cons c t =>
    simp only [List.map_cons, loadChunks, joinLoop_map_some]
    rw [if_neg (by simpa using h2)]
    simp

lemma splitChunksAux_flatten :
    ∀ (fuel cs : Nat) (l : List Nat), 1 ≤ cs → l.length ≤ fuel →
      (splitChunksAux fuel cs l).flatten = l := by
  intro fuel
  induction fuel with
  | zero =>
    intro cs l h1 h2
    have hl : l = [] := List.length_eq_zero.mp (by omega)
    subst hl
    rfl
  | succ f ih =>
    intro cs l h1 h2
    cases l with
    | nil => rfl
    | cons a t =>
      simp only [List.length_cons] at h2
      simp only [splitChunksAux, List.flatten_cons]
      rw [ih cs ((a :: t).drop cs) h1
        (by simp only [List.length_drop, List.length_cons]; omega)]
      exact List.take_append_drop cs (a :: t)

lemma splitChunks_flatten (cs : Nat) (text : List Nat) (h1 : 1 ≤ cs) :
    (splitChunks cs text).flatten = text :=
  splitChunksAux_flatten text.length cs text h1 le_rfl

lemma splitChunks_ne_nil (cs : Nat) (text : List Nat) (ht : text ≠ []) :
    splitChunks cs text ≠ [] := by
  cases text with
  | nil => exact absurd rfl ht
  | cons a t => simp [splitChunks, splitChunksAux]

lemma splitChunksAux_length :
    ∀ (fuel cs : Nat) (l : List Nat), 1 ≤ cs → l.length ≤ fuel →
      (splitChunksAux fuel cs l).length = (l.length + cs - 1) / cs := by
  intro fuel
  induction fuel with
  | zero =>
    intro cs l h1 h2
    have hl : l = [] := List.length_eq_zero.mp (by omega)
    subst hl
    simp [splitChunksAux, Nat.div_eq_of_lt (show cs - 1 < cs by omega)]
  | succ f ih =>
    intro cs l h1 h2
    cases l with
    | nil => simp [splitChunksAux, Nat.div_eq_of_lt (show cs - 1 < cs by omega)]
    | cons a t =>
      simp only [List.length_cons] at h2
      simp only [splitChunksAux, List.length_cons]
      rw [ih cs ((a :: t).drop cs) h1
        (by simp only [List.length_drop, List.length_cons]; omega)]
      simp only [List.length_drop, List.length_cons]
      rw [show t.length + 1 + cs - 1 = (t.length + 1 - 1) + cs from by omega,
        Nat.add_div_right _ (by omega)]
      by_cases hc : t.length + 1 ≤ cs
      · rw [show t.length + 1 - cs = 0 from by omega]
        rw [Nat.div_eq_of_lt (show 0 + cs - 1 < cs by omega),
          Nat.div_eq_of_lt (show t.length + 1 - 1 < cs by omega)]
      · rw [show t.length + 1 - cs + cs - 1 = (t.length + 1 - cs - 1) + cs from by omega,
          Nat.add_div_right _ (by omega),
          show t.length + 1 - 1 = (t.length + 1 - cs - 1) + cs from by omega,
          Nat.add_div_right _ (by omega)]

lemma splitChunksAux_get :
    ∀ (fuel cs : Nat) (l : List Nat) (i : Nat), 1 ≤ cs → l.length ≤ fuel →
      i < (splitChunksAux fuel cs l).length →
      (splitChunksAux fuel cs l).get? i = some ((l.drop (i * cs)).take cs) := by
  intro fuel
  induction fuel with
  | zero =>
    intro cs l i h1 h2 h3
    have hl : l = [] := List.length_eq_zero.mp (by omega)
    subst hl
    simp [splitChunksAux] at h3
  | succ f ih =>
    intro cs l i h1 h2 h3
    cases l with
    | nil => simp [splitChunksAux] at h3
    | cons a t =>
      simp only [List.length_cons] at h2
      simp only [splitChunksAux] at h3 ⊢
      cases i with
      | zero => simp
      | succ j =>
        simp only [List.get?_cons_succ, List.length_cons] at h3 ⊢
        rw [ih cs ((a :: t).drop cs) j h1
          (by simp only [List.length_drop, List.length_cons]; omega)
          (by simpa using h3)]
        rw [List.drop_drop, show cs + j * cs = (j + 1) * cs from by ring]

/-! ### Claim C4 -/

/-- C4: the chunk loading phase fails with the no-chunks-found error
precisely when the resource for index 0 is absent; otherwise it reads
resources in increasing index order up to the first absent one, so a gap at
index k truncates the join to chunks 0..k-1 — amended: the truncated join is
returned only when it is non-empty; an all-empty prefix fails with the
empty-content error instead of succeeding. -/
theorem C4_join_contract (fs : List (Option (List Nat))) :
    (loadChunks fs = Except.error JoinErr.noChunksFound ↔ fs.getD 0 none = none) ∧
    (∀ (pre : List (List Nat)) (rest : List (Option (List Nat))),
      fs = pre.map some ++ none :: rest → pre.flatten ≠ [] →
      loadChunks fs = Except.ok pre.flatten) := by
  constructor
  · cases fs with
    | nil => simp [loadChunks]
    | cons h t =>
      cases h with
      | none => simp [loadChunks]
      | some c =>
        simp only [loadChunks, List.getD_cons_zero]
        constructor
        · intro h
          split at h <;> simp_all
        · intro h
          simp at h
  · intro pre rest hfs hne
    subst hfs
    cases pre with
    | nil => simp at hne
    | cons c t =>
      simp only [List.map_cons, List.cons_append, loadChunks,
        joinLoop_map_some_append_none]
      rw [if_neg (by simpa using hne)]
      simp

/-- Closed counterexample to C4 as stated: chunk 0 exists but is empty and
chunk 1 is absent, so the claim predicts the join "chunk 0 contents" (the
empty text, not an error), yet the code fails with the empty-content error. -/
theorem C4_join_contract_counterexample :
    loadChunks [some [], none, some [97]] = Except.error JoinErr.emptyContent ∧
    loadChunks [some [], none, some [97]] ≠ Except.ok [] := by
  constructor
  · rfl
  · intro h
    simp [loadChunks, joinLoop] at h

theorem C4_join_contract_witness :
    loadChunks [some [104], none, some [33]] = Except.ok [104] := by
  have h := (C4_join_contract [some [104], none, some [33]]).2 [[104]] [some [33]]
    rfl (by simp)
  simpa using h

/-! ### Claim C5 -/

/-- C5: splitting a non-empty text with a chunk size that is at least 1 or
exactly 0 and then joining the written chunks in index order reproduces the
text exactly. -/
theorem C5_split_join_round_trip (text : List Nat) (chunkSize : Int)
    (ht : text ≠ []) (hs : 1 ≤ chunkSize ∨ chunkSize = 0)
    (chunks : List (List Nat))
    (hsave : save_encoded_string_in_chunks text chunkSize = Except.ok chunks) :
    loadChunks (chunks.map some) = Except.ok text := by
  have hlen : 0 < text.length := List.length_pos.mpr ht
  unfold save_encoded_string_in_chunks at hsave
  rw [if_neg ht] at hsave
  have hcs1 : 1 ≤ (if chunkSize = 0 then (text.length : Int) else chunkSize) := by
    rcases hs with h | h
    · rw [if_neg (by omega)]; exact h
    · rw [if_pos h]; exact_mod_cast hlen
  rw [if_neg (by omega)] at hsave
  have hchunks : chunks =
      splitChunks (if chunkSize = 0 then (text.length : Int) else chunkSize).toNat
        text := by
    injection hsave with h
    exact h.symm
  have h1 : 1 ≤ (if chunkSize = 0 then (text.length : Int) else chunkSize).toNat := by
    omega
  subst hchunks
  rw [loadChunks_map_some _ (splitChunks_ne_nil _ _ ht)
    (by rw [splitChunks_flatten _ _ h1]; exact ht)]
  rw [splitChunks_flatten _ _ h1]

theorem C5_split_join_round_trip_witness :
    loadChunks ([[104], [105]].map some) = Except.ok [104, 105] :=
  C5_split_join_round_trip [104, 105] 1 (by simp) (Or.inl (by norm_num))
    [[104], [105]] rfl

/-! ### Claim C6 -/

/-- C6: for a non-empty text and a chunk size of at least 1, the split
writes exactly ceil(len/size) resources at the contiguous indices 0..n-1,
piece i holding the characters from position i*size up to at most
i*size + size. -/
theorem C6_split_layout (text : List Nat) (chunkSize : Int)
    (ht : text ≠ []) (hs : 1 ≤ chunkSize)
    (chunks : List (List Nat))
    (hsave : save_encoded_string_in_chunks text chunkSize = Except.ok chunks) :
    chunks.length = (text.length + chunkSize.toNat - 1) / chunkSize.toNat ∧
    ∀ i < chunks.length,
      chunks.get? i =
        some ((text.drop (i * chunkSize.toNat)).take chunkSize.toNat) := by
  unfold save_encoded_string_in_chunks at hsave
  rw [if_neg ht, if_neg (by rw [if_neg (by omega)]; omega)] at hsave
  rw [if_neg (by omega)] at hsave
  have hchunks : chunks = splitChunks chunkSize.toNat text := by
    injection hsave with h
    exact h.symm
  have h1 : 1 ≤ chunkSize.toNat := by omega
  subst hchunks
  constructor
  · exact splitChunksAux_length text.length chunkSize.toNat text h1 le_rfl
  · intro i hi
    exact splitChunksAux_get text.length chunkSize.toNat text i h1 le_rfl hi

theorem C6_split_layout_witness :
    ([[1, 2], [3]] : List (List Nat)).length =
      (([1, 2, 3] : List Nat).length + (2 : Int).toNat - 1) / (2 : Int).toNat ∧
    ([[1, 2], [3]] : List (List Nat)).get? 1 =
      some ((([1, 2, 3] : List Nat).drop (1 * (2 : Int).toNat)).take (2 : Int).toNat) :=
  ⟨(C6_split_layout [1, 2, 3] 2 (by simp) (by norm_num) [[1, 2], [3]] rfl).1,
   (C6_split_layout [1, 2, 3] 2 (by simp) (by norm_num) [[1, 2], [3]] rfl).2 1
     (by norm_num)⟩

/-! ### Claim C7 -/

/-- Closed counterexample to C7 as stated: on the empty text with chunk
size -1, the code fails with the empty-input error (the emptiness check
comes first), not with the invalid-argument error the claim promises for
every text. -/
theorem C7_negative_chunk_size_counterexample :
    save_encoded_string_in_chunks [] (-1) = Except.error SaveErr.emptyInput ∧
    save_encoded_string_in_chunks [] (-1) ≠ Except.error SaveErr.invalidArgument := by
  constructor
  · rfl
  · intro h
    simp [save_encoded_string_in_chunks] at h

/-- C7 amended: for every non-empty text and negative chunk size, the split
fails with the invalid-argument error (and, failing before the write loop,
writes no resource). -/
theorem C7_negative_chunk_size (text : List Nat) (chunkSize : Int)
    (ht : text ≠ []) (hs : chunkSize < 0) :
    save_encoded_string_in_chunks text chunkSize =
      Except.error SaveErr.invalidArgument := by
  unfold save_encoded_string_in_chunks
  rw [if_neg ht, if_pos (by rw [if_neg (by omega)]; exact hs)]

theorem C7_negative_chunk_size_witness :
    save_encoded_string_in_chunks [97] (-1) =
      Except.error SaveErr.invalidArgument :=
  C7_negative_chunk_size [97] (-1) (by simp) (by norm_num)

/-! ### Claim C8 -/

/-- C8: both aes_encrypt and aes_decrypt coerce the UTF-8 encoding of the
key string to exactly 32 bytes — right zero-padding when shorter,
truncation to the first 32 bytes when longer — and apply the identical
coercion.  The closed form take 32 ++ replicate (32 - length) 0 covers the
padding, truncation and exact-length cases at once. -/
theorem C8_key_coercion (key : List Nat) :
    encrypt_key_bytes key = decrypt_key_bytes key ∧
    encrypt_key_bytes key =
      (utf8Encode key).take 32 ++ List.replicate (32 - (utf8Encode key).length) 0 ∧
    (encrypt_key_bytes key).length = 32 := by
  have h2 : encrypt_key_bytes key =
      (utf8Encode key).take 32 ++ List.replicate (32 - (utf8Encode key).length) 0 := by
    unfold encrypt_key_bytes
    by_cases h : (utf8Encode key).length < 32
    · rw [if_pos h, List.take_of_length_le (by omega)]
    · rw [if_neg h]
      by_cases hgt : (utf8Encode key).length > 32
      · rw [if_pos hgt, show 32 - (utf8Encode key).length = 0 from by omega]
        simp
      · rw [if_neg hgt, show 32 - (utf8Encode key).length = 0 from by omega,
          List.take_of_length_le (by omega)]
        simp
  refine ⟨rfl, h2, ?_⟩
  rw [h2]
  simp only [List.length_append, List.length_take, List.length_replicate]
  omega

/-! ### Claim C10 -/

/-- C10: every input shorter than 16 bytes is rejected by aes_decrypt with
the data-too-short ValueError, before any decryption mode is tried (the
result is the dedicated too-short error, not a mode-trial outcome). -/
theorem C10_short_input_rejected (AESb AESbInv : List Nat → List Nat → List Nat)
    (data key : List Nat) (h : data.length < 16) :
    aes_decrypt AESb AESbInv data key = Except.error DecErr.tooShort := by
  simp [aes_decrypt, h]

theorem C10_short_input_rejected_witness :
    aes_decrypt constBlock constBlock [1, 2, 3] [107] =
      Except.error DecErr.tooShort :=
  C10_short_input_rejected constBlock constBlock [1, 2, 3] [107] (by norm_num)

/-! ### AES lemmas -/

lemma ctrKeystream_length (AESb : List Nat → List Nat → List Nat)
    (hB : GoodBlock AESb) (kb nonce : List Nat) (n : Nat) :
    (ctrKeystream AESb kb nonce n).length = n := by
  unfold ctrKeystream
  rw [List.length_take]
  have hflat :
      (((List.range ((n + 15) / 16)).map (fun i => AESb kb (ctrBlock nonce i))).flatten).length
        = 16 * ((n + 15) / 16) := by
    rw [List.length_flatten, List.map_map]
    have : ∀ i ∈ List.range ((n + 15) / 16),
        (List.length ∘ fun i => AESb kb (ctrBlock nonce i)) i = (fun _ => 16) i := by
      intro i _
      exact (hB kb (ctrBlock nonce i)).1
    rw [List.map_congr_left this, List.map_const', List.sum_replicate, List.length_range]
    simp [Nat.mul_comm]
  rw [hflat]
  omega

lemma ctrKeystream_isBytes (AESb : List Nat → List Nat → List Nat)
    (hB : GoodBlock AESb) (kb nonce : List Nat) (n : Nat) :
    IsBytes (ctrKeystream AESb kb nonce n) := by
  intro b hb
  unfold ctrKeystream at hb
  have hb2 := List.mem_of_mem_take hb
  obtain ⟨blk, hblk, hbmem⟩ := List.mem_flatten.mp hb2
  obtain ⟨i, _, rfl⟩ := List.mem_map.mp hblk
  exact (hB kb (ctrBlock nonce i)).2 b hbmem

lemma ofbBlocks_flatten_length (AESb : List Nat → List Nat → List Nat)
    (hB : GoodBlock AESb) (kb : List Nat) :
    ∀ (m : Nat) (prev : List Nat), ((ofbBlocks AESb kb prev m).flatten).length = 16 * m := by
  intro m
  induction m with
  | zero => intro prev; rfl
  | succ j ih =>
    intro prev
    simp only [ofbBlocks, List.flatten_cons, List.length_append,
      (hB kb prev).1, ih (AESb kb prev)]
    ring

lemma ofbKeystream_length (AESb : List Nat → List Nat → List Nat)
    (hB : GoodBlock AESb) (kb iv : List Nat) (n : Nat) :
    (ofbKeystream AESb kb iv n).length = n := by
  unfold ofbKeystream
  rw [List.length_take, ofbBlocks_flatten_length AESb hB kb ((n + 15) / 16) iv]
  omega

lemma ofbKeystream_isBytes (AESb : List Nat → List Nat → List Nat)
    (hB : GoodBlock AESb) (kb iv : List Nat) (n : Nat) :
    IsBytes (ofbKeystream AESb kb iv n) := by
  intro b hb
  unfold ofbKeystream at hb
  have hb2 := List.mem_of_mem_take hb
  obtain ⟨blk, hblk, hbmem⟩ := List.mem_flatten.mp hb2
  suffices h : ∀ (m : Nat) (prev : List Nat), blk ∈ ofbBlocks AESb kb prev m → b < 256 by
    exact h ((n + 15) / 16) iv hblk
  intro m
  induction m with
  | zero => intro prev hp; simp [ofbBlocks] at hp
  | succ j ih =>
    intro prev hp
    simp only [ofbBlocks, List.mem_cons] at hp
    rcases hp with rfl | hp
    · exact (hB kb prev).2 b hbmem
    · exact ih (AESb kb prev) hp

lemma xorBytes_length (a b : List Nat) :
    (xorBytes a b).length = min a.length b.length := by
  simp [xorBytes]

lemma xorBytes_cancel :
    ∀ (a b : List Nat), a.length = b.length → xorBytes (xorBytes a b) b = a := by
  intro a
  induction a with
  | nil => intro b h; cases b <;> rfl
  | cons x t ih =>
    intro b h
    cases b with
    | nil => simp at h
    | cons y u =>
      simp only [xorBytes, List.zipWith_cons_cons] at *
      rw [show Nat.xor (Nat.xor x y) y = x from Nat.xor_cancel_right y x,
        ih u (by simpa using h)]

lemma xorBytes_isBytes (a b : List Nat) (ha : IsBytes a) (hb : IsBytes b) :
    IsBytes (xorBytes a b) := by
  induction a generalizing b with
  | nil => intro x hx; simp [xorBytes] at hx
  | cons x t ih =>
    cases b with
    | nil => intro z hz; simp [xorBytes] at hz
    | cons y u =>
      intro z hz
      simp only [xorBytes, List.zipWith_cons_cons, List.mem_cons] at hz
      rcases hz with rfl | hz
      · have h256 : (256 : Nat) = 2 ^ 8 := by norm_num
        rw [h256]
        exact Nat.xor_lt_two_pow (by rw [← h256]; exact ha x (by simp))
          (by rw [← h256]; exact hb y (by simp))
      · exact ih u (fun v hv => ha v (by simp [hv]))
          (fun v hv => hb v (by simp [hv])) z hz

/-- The heart of the CTR round trip: decrypting a CTR encryption with any
key whose coerced 32 bytes equal those of the encryption key recovers the
plaintext (the CTR trial is attempted first and always completes). -/
lemma aes_ctr_enc_dec (AESb AESbInv : List Nat → List Nat → List Nat)
    (hB : GoodBlock AESb) (d k k2 nonce : List Nat) (hn : nonce.length = 16)
    (hkeys : decrypt_key_bytes k2 = encrypt_key_bytes k) :
    aes_decrypt AESb AESbInv (aes_encrypt AESb d k .ctr nonce) k2 = Except.ok d := by
  have hks : (ctrKeystream AESb (encrypt_key_bytes k) nonce d.length).length = d.length :=
    ctrKeystream_length AESb hB _ nonce d.length
  have hct : (xorBytes d (ctrKeystream AESb (encrypt_key_bytes k) nonce d.length)).length
      = d.length := by rw [xorBytes_length]; omega
  simp only [aes_encrypt]
  unfold aes_decrypt
  rw [if_neg (by simp only [List.length_append, hn, hct]; omega)]
  rw [show (16 : Nat) = nonce.length from hn.symm, List.take_left, List.drop_left]
  simp only [ctrTry, hkeys, hct]
  rw [xorBytes_cancel _ _ (by omega)]

lemma aes_decrypt_always_ok (AESb AESbInv : List Nat → List Nat → List Nat)
    (encryptedData key : List Nat) (h : 16 ≤ encryptedData.length) :
    aes_decrypt AESb AESbInv encryptedData key =
      Except.ok (xorBytes (encryptedData.drop 16)
        (ctrKeystream AESb (decrypt_key_bytes key) (encryptedData.take 16)
          (encryptedData.drop 16).length)) := by
  unfold aes_decrypt
  rw [if_neg (by omega)]
  rfl

/-! ### Claim C2 -/

/-- C2 amended: decrypting a CTR encryption never raises, with any key; the
correct key recovers the plaintext exactly, and more generally so does any
key string whose coerced 32-byte key equals the encryption key's (distinct
key strings can coerce to the same 32 bytes, so a wrong key string does not
always produce incorrect bytes). -/
theorem C2_ctr_decrypt (AESb AESbInv : List Nat → List Nat → List Nat)
    (hB : GoodBlock AESb) (d k k2 nonce : List Nat) (hn : nonce.length = 16) :
    (∃ bs, aes_decrypt AESb AESbInv (aes_encrypt AESb d k .ctr nonce) k2 =
      Except.ok bs) ∧
    (decrypt_key_bytes k2 = encrypt_key_bytes k →
      aes_decrypt AESb AESbInv (aes_encrypt AESb d k .ctr nonce) k2 =
        Except.ok d) := by
  constructor
  · refine ⟨_, aes_decrypt_always_ok AESb AESbInv _ k2 ?_⟩
    simp only [aes_encrypt, List.length_append, hn]
    omega
  · intro hkeys
    exact aes_ctr_enc_dec AESb AESbInv hB d k k2 nonce hn hkeys

/-- Closed counterexample to C2 as stated: the key strings "a" and "a\x00"
differ, but both coerce to the same 32 bytes, so decrypting with the
"wrong" key returns the correct plaintext rather than incorrect bytes. -/
theorem C2_ctr_decrypt_counterexample :
    ([97] : List Nat) ≠ [97, 0] ∧
    aes_decrypt constBlock constBlock
      (aes_encrypt constBlock [1, 2, 3] [97] AesMode.ctr (List.replicate 16 0))
      [97, 0] = Except.ok [1, 2, 3] := by
  constructor
  · simp
  · rfl

theorem C2_ctr_decrypt_witness :
    aes_decrypt constBlock constBlock
      (aes_encrypt constBlock [5, 6] [107] AesMode.ctr (List.replicate 16 3))
      [107] = Except.ok [5, 6] :=
  (C2_ctr_decrypt constBlock constBlock goodBlock_constBlock [5, 6] [107] [107]
    (List.replicate 16 3) (by simp)).2 rfl

/-! ### Claim C3 -/

/-- C3: for any input of at least 16 bytes, aes_decrypt attempts the mode
trials in the fixed order CTR, CBC, OFB, returns the plaintext of the first
trial that completes without raising, and raises the DecryptionFailed error
enumerating all three failure reasons precisely when all three trials raise
(the CTR trial in fact never raises, so the fallbacks are dead code, as the
design notes record). -/
theorem C3_trial_order (AESb AESbInv : List Nat → List Nat → List Nat)
    (data key : List Nat) (h : 16 ≤ data.length) :
    (∀ r, aes_decrypt AESb AESbInv data key = Except.ok r ↔
      (ctrTry AESb (decrypt_key_bytes key) (data.take 16) (data.drop 16) =
         Except.ok r ∨
       ((∃ e, ctrTry AESb (decrypt_key_bytes key) (data.take 16) (data.drop 16) =
           Except.error e) ∧
        cbcTry AESbInv (decrypt_key_bytes key) (data.take 16) (data.drop 16) =
          Except.ok r) ∨
       ((∃ e, ctrTry AESb (decrypt_key_bytes key) (data.take 16) (data.drop 16) =
           Except.error e) ∧
        (∃ e, cbcTry AESbInv (decrypt_key_bytes key) (data.take 16) (data.drop 16) =
           Except.error e) ∧
        ofbTry AESb (decrypt_key_bytes key) (data.take 16) (data.drop 16) =
          Except.ok r))) ∧
    (∀ e1 e2 e3,
      aes_decrypt AESb AESbInv data key =
          Except.error (DecErr.decryptionFailed e1 e2 e3) ↔
        (ctrTry AESb (decrypt_key_bytes key) (data.take 16) (data.drop 16) =
           Except.error e1 ∧
         cbcTry AESbInv (decrypt_key_bytes key) (data.take 16) (data.drop 16) =
           Except.error e2 ∧
         ofbTry AESb (decrypt_key_bytes key) (data.take 16) (data.drop 16) =
           Except.error e3)) := by
  have hne : ¬ data.length < 16 := by omega
  constructor
  · intro r
    simp [aes_decrypt, hne, ctrTry]
  · intro e1 e2 e3
    simp [aes_decrypt, hne, ctrTry]

theorem C3_trial_order_witness :
    aes_decrypt constBlock constBlock (List.replicate 16 0) [107] = Except.ok [] ↔
      (ctrTry constBlock (decrypt_key_bytes [107]) ((List.replicate 16 0).take 16)
         ((List.replicate 16 0).drop 16) = Except.ok [] ∨
       ((∃ e, ctrTry constBlock (decrypt_key_bytes [107])
           ((List.replicate 16 0).take 16) ((List.replicate 16 0).drop 16) =
           Except.error e) ∧
        cbcTry constBlock (decrypt_key_bytes [107]) ((List.replicate 16 0).take 16)
          ((List.replicate 16 0).drop 16) = Except.ok []) ∨
       ((∃ e, ctrTry constBlock (decrypt_key_bytes [107])
           ((List.replicate 16 0).take 16) ((List.replicate 16 0).drop 16) =
           Except.error e) ∧
        (∃ e, cbcTry constBlock (decrypt_key_bytes [107])
           ((List.replicate 16 0).take 16) ((List.replicate 16 0).drop 16) =
           Except.error e) ∧
        ofbTry constBlock (decrypt_key_bytes [107]) ((List.replicate 16 0).take 16)
          ((List.replicate 16 0).drop 16) = Except.ok [])) :=
  (C3_trial_order constBlock constBlock (List.replicate 16 0) [107] (by simp)).1 []

/-! ### Claim C9 -/

lemma pkcs7Pad_length (d : List Nat) :
    (pkcs7Pad d).length = 16 * (d.length / 16) + 16 := by
  simp only [pkcs7Pad, List.length_append, List.length_replicate]
  omega

lemma cbcEncryptAux_length (AESb : List Nat → List Nat → List Nat)
    (hB : GoodBlock AESb) (kb : List Nat) :
    ∀ (fuel : Nat) (prev l : List Nat), l.length ≤ fuel → l.length % 16 = 0 →
      (cbcEncryptAux AESb kb fuel prev l).length = l.length := by
  intro fuel
  induction fuel with
  | zero =>
    intro prev l h1 h2
    have hl : l = [] := List.length_eq_zero.mp (by omega)
    subst hl
    rfl
  | succ f ih =>
    intro prev l h1 h2
    cases l with
    | nil => rfl
    | cons a t =>
      simp only [List.length_cons] at h1 h2
      simp only [cbcEncryptAux, List.length_append, List.length_cons,
        (hB kb (xorBytes ((a :: t).take 16) prev)).1]
      rw [ih _ ((a :: t).drop 16)
        (by simp only [List.length_drop, List.length_cons]; omega)
        (by simp only [List.length_drop, List.length_cons]; omega)]
      simp only [List.length_drop, List.length_cons]
      omega

/-- C9: in every mode, aes_encrypt prepends the 16-byte IV/nonce to the
encrypted payload; in CTR and OFB modes the total length is the data length
plus 16, and in CBC mode the data is PKCS#7-padded to the next 16-byte
boundary before encryption, giving total length
16 + 16 * (len / 16) + 16. -/
theorem C9_ciphertext_format (AESb : List Nat → List Nat → List Nat)
    (hB : GoodBlock AESb) (d key iv : List Nat) (hiv : iv.length = 16) :
    (∀ mode, (aes_encrypt AESb d key mode iv).take 16 = iv) ∧
    (aes_encrypt AESb d key AesMode.ctr iv).length = d.length + 16 ∧
    (aes_encrypt AESb d key AesMode.ofb iv).length = d.length + 16 ∧
    (aes_encrypt AESb d key AesMode.cbc iv).length =
      16 + 16 * (d.length / 16) + 16 := by
  refine ⟨?_, ?_, ?_, ?_⟩
  · intro mode
    cases mode <;>
      · simp only [aes_encrypt]
        rw [show (16 : Nat) = iv.length from hiv.symm, List.take_left]
  · simp only [aes_encrypt, List.length_append, hiv, xorBytes_length,
      ctrKeystream_length AESb hB]
    omega
  · simp only [aes_encrypt, List.length_append, hiv, xorBytes_length,
      ofbKeystream_length AESb hB]
    omega
  · simp only [aes_encrypt, cbcEncrypt, List.length_append, hiv]
    rw [cbcEncryptAux_length AESb hB _ _ _ _ le_rfl
      (by rw [pkcs7Pad_length]; omega)]
    rw [pkcs7Pad_length]
    omega

theorem C9_ciphertext_format_witness :
    (aes_encrypt constBlock [1, 2, 3] [107] AesMode.cbc (List.replicate 16 9)).length =
      16 + 16 * (([1, 2, 3] : List Nat).length / 16) + 16 :=
  (C9_ciphertext_format constBlock goodBlock_constBlock [1, 2, 3] [107]
    (List.replicate 16 9) (by simp)).2.2.2

/-! ### Pipeline round-trip lemmas and claim C1 -/

lemma b64encode_ne_nil (fd : List Nat) (h : fd ≠ []) : b64encode fd ≠ [] := by
  cases fd with
  | nil => exact absurd rfl h
  | cons a l =>
    cases l with
    | nil => simp [b64encode]
    | cons b l2 =>
      cases l2 with
      | nil => simp [b64encode]
      | cons c l3 => simp [b64encode]

lemma b64encode_all_space_false (fd : List Nat) (h : fd ≠ []) (hb : IsBytes fd) :
    (b64encode fd).all isPySpace = false := by
  cases fd with
  | nil => exact absurd rfl h
  | cons a l =>
    obtain ⟨c, t, heq, hc⟩ := b64encode_head_not_space a l (hb a (by simp))
    rw [heq, List.all_cons, hc]
    rfl

lemma save_ok (text : List Nat) (chunkSize : Int) (ht : text ≠ [])
    (hs : 1 ≤ chunkSize ∨ chunkSize = 0) :
    ∃ cs : Nat, 1 ≤ cs ∧
      save_encoded_string_in_chunks text chunkSize =
        Except.ok (splitChunks cs text) := by
  have hlen : 0 < text.length := List.length_pos.mpr ht
  have hcs1 : 1 ≤ (if chunkSize = 0 then (text.length : Int) else chunkSize) := by
    rcases hs with h | h
    · rw [if_neg (by omega)]; exact h
    · rw [if_pos h]; exact_mod_cast hlen
  refine ⟨(if chunkSize = 0 then (text.length : Int) else chunkSize).toNat,
    by omega, ?_⟩
  unfold save_encoded_string_in_chunks
  rw [if_neg ht, if_neg (by omega)]

lemma decode_and_decompress_encode (AESb AESbInv : List Nat → List Nat → List Nat)
    (zlibC lzmaC brotliC C : Compressor) (algorithm : String)
    (hdd : ∀ e, decompressDispatch zlibC lzmaC brotliC algorithm e = C.decomp e)
    (decrypt : Bool) (key fd payload x s : List Nat)
    (hfdne : fd ≠ []) (hfdb : IsBytes fd)
    (hdec : (if decrypt then aes_decrypt AESb AESbInv fd key else Except.ok fd) =
      Except.ok payload)
    (hdecomp : C.decomp payload = some x) (hutf : utf8Decode x = some s) :
    decode_and_decompress AESb AESbInv zlibC lzmaC brotliC (b64encode fd)
      algorithm decrypt key = some s := by
  unfold decode_and_decompress
  rw [if_neg (by
    push_neg
    refine ⟨b64encode_ne_nil fd hfdne, ?_⟩
    simp [b64encode_all_space_false fd hfdne hfdb])]
  simp only [b64_round_trip fd hfdb, hdec, hdd, hdecomp, hutf]

lemma full_round_trip_core (AESb AESbInv : List Nat → List Nat → List Nat)
    (zlibC lzmaC brotliC C : Compressor)
    (hB : GoodBlock AESb) (hC : GoodCompressor C)
    (algorithm : String) (level : Nat)
    (hcd : ∀ d2, compressDispatch zlibC lzmaC brotliC algorithm level d2 =
      some (C.comp level d2))
    (hdd : ∀ e, decompressDispatch zlibC lzmaC brotliC algorithm e = C.decomp e)
    (encrypt : Bool) (key nonce : List Nat) (hn : nonce.length = 16)
    (hnb : IsBytes nonce) (s : List Nat) (hs : s ≠ []) (hv : ValidStr s)
    (chunkSize : Int) (hcs : 1 ≤ chunkSize ∨ chunkSize = 0) :
    full_round_trip AESb AESbInv zlibC lzmaC brotliC (utf8Encode s) level algorithm
      encrypt key nonce chunkSize = some s := by
  have hxb : IsBytes (utf8Encode s) := utf8Encode_bytes s hv
  have hxne : utf8Encode s ≠ [] := by
    cases s with
    | nil => exact absurd rfl hs
    | cons v t => exact utf8Encode_ne_nil v t
  obtain ⟨hrt, hcompne, hcompb⟩ := hC level (utf8Encode s)
  set fd := (if encrypt then
      aes_encrypt AESb (C.comp level (utf8Encode s)) key .ctr nonce
    else C.comp level (utf8Encode s)) with hfd
  have hfdne : fd ≠ [] := by
    cases encrypt with
    | false => simpa [hfd] using hcompne
    | true =>
      simp only [hfd, ite_true, aes_encrypt]
      intro hemp
      rw [List.append_eq_nil] at hemp
      have h16 := hn
      rw [hemp.1] at h16
      simp at h16
  have hfdb : IsBytes fd := by
    cases encrypt with
    | false => simpa [hfd] using hcompb hxb
    | true =>
      simp only [hfd, ite_true, aes_encrypt]
      intro b hb
      rw [List.mem_append] at hb
      rcases hb with hb | hb
      · exact hnb b hb
      · exact xorBytes_isBytes _ _ (hcompb hxb)
          (ctrKeystream_isBytes AESb hB _ _ _) b hb
  have hdec : (if encrypt then aes_decrypt AESb AESbInv fd key else Except.ok fd) =
      Except.ok (C.comp level (utf8Encode s)) := by
    cases encrypt with
    | false => simp [hfd]
    | true =>
      simp only [hfd, ite_true]
      exact aes_ctr_enc_dec AESb AESbInv hB _ key key nonce hn rfl
  have henc : compress_and_encode AESb zlibC lzmaC brotliC (utf8Encode s) level
      algorithm encrypt key nonce = some (b64encode fd) := by
    unfold compress_and_encode
    rw [hcd (utf8Encode s)]
  obtain ⟨cs, hcs1, hsave⟩ :=
    save_ok (b64encode fd) chunkSize (b64encode_ne_nil fd hfdne) hcs
  have hload : loadChunks ((splitChunks cs (b64encode fd)).map some) =
      Except.ok (b64encode fd) := by
    rw [loadChunks_map_some _ (splitChunks_ne_nil _ _ (b64encode_ne_nil fd hfdne))
      (by rw [splitChunks_flatten _ _ hcs1]; exact b64encode_ne_nil fd hfdne)]
    rw [splitChunks_flatten _ _ hcs1]
  have hdecode : decode_and_decompress AESb AESbInv zlibC lzmaC brotliC
      (b64encode fd) algorithm encrypt key = some s :=
    decode_and_decompress_encode AESb AESbInv zlibC lzmaC brotliC C algorithm hdd
      encrypt key fd (C.comp level (utf8Encode s)) (utf8Encode s) s hfdne hfdb hdec
      hrt (utf8_decode_encode s hv)
  unfold full_round_trip load_and_restore_from_chunks
  rw [henc]
  simp only [hsave, hload, hdecode]

/-- C1 amended: for every compressor triple with the round-trip guarantees
of zlib, lzma and brotli, every algorithm among those three, every
encryption flag and key, and every non-empty byte input that is the UTF-8
encoding of a text, running compress_and_encode and
save_encoded_string_in_chunks and then load_and_restore_from_chunks with
the same algorithm, flag and key reproduces the input exactly (the restored
text is written back as UTF-8, so its file bytes equal the input).  The
restriction to UTF-8-decodable inputs is forced: decode_and_decompress
UTF-8-decodes the decompressed bytes, so a non-UTF-8 input fails the
reverse pipeline — see the counterexample. -/
theorem C1_round_trip (AESb AESbInv : List Nat → List Nat → List Nat)
    (zlibC lzmaC brotliC : Compressor)
    (hB : GoodBlock AESb) (hz : GoodCompressor zlibC) (hl : GoodCompressor lzmaC)
    (hbr : GoodCompressor brotliC)
    (algorithm : String)
    (halg : algorithm = "zlib" ∨ algorithm = "lzma" ∨ algorithm = "brotli")
    (level : Nat) (encrypt : Bool) (key nonce : List Nat)
    (hn : nonce.length = 16) (hnb : IsBytes nonce)
    (s : List Nat) (hs : s ≠ []) (hv : ValidStr s)
    (chunkSize : Int) (hcs : 1 ≤ chunkSize ∨ chunkSize = 0) :
    full_round_trip AESb AESbInv zlibC lzmaC brotliC (utf8Encode s) level algorithm
      encrypt key nonce chunkSize = some s := by
  rcases halg with h | h | h <;> subst h
  · exact full_round_trip_core AESb AESbInv zlibC lzmaC brotliC zlibC hB hz "zlib"
      level (fun d2 => by simp [compressDispatch]) (fun e => by simp [decompressDispatch])
      encrypt key nonce hn hnb s hs hv chunkSize hcs
  · exact full_round_trip_core AESb AESbInv zlibC lzmaC brotliC lzmaC hB hl "lzma"
      level (fun d2 => by simp [compressDispatch]) (fun e => by simp [decompressDispatch])
      encrypt key nonce hn hnb s hs hv chunkSize hcs
  · exact full_round_trip_core AESb AESbInv zlibC lzmaC brotliC brotliC hB hbr "brotli"
      level (fun d2 => by simp [compressDispatch]) (fun e => by simp [decompressDispatch])
      encrypt key nonce hn hnb s hs hv chunkSize hcs

/-- Closed counterexample to C1 as stated: the single byte 255 is a
non-empty byte input, the compressor round-trips it perfectly, yet the
reverse pipeline returns None (the decompressed bytes are not valid UTF-8,
so the final bytes.decode raises) instead of reproducing the input. -/
theorem C1_round_trip_counterexample :
    ([255] : List Nat) ≠ [] ∧
    full_round_trip constBlock constBlock padComp padComp padComp [255] 9 "zlib"
      false [107] (List.replicate 16 0) 0 = none := by
  constructor
  · simp
  · rfl

theorem C1_round_trip_witness :
    full_round_trip constBlock constBlock padComp padComp padComp
      (utf8Encode [104, 105]) 9 "zlib" true [107] (List.replicate 16 0) 5 =
      some [104, 105] :=
  C1_round_trip constBlock constBlock padComp padComp padComp
    goodBlock_constBlock goodCompressor_padComp goodCompressor_padComp
    goodCompressor_padComp "zlib" (Or.inl rfl) 9 true [107] (List.replicate 16 0)
    (by simp) (by intro b hb; simp at hb; omega) [104, 105] (by simp)
    (by intro v hv; simp [ValidCodepoint] at hv ⊢; rcases hv with rfl | rfl <;> omega)
    5 (Or.inl (by norm_num))

end EncodePatch
